import Mathlib

/-!
Verification of the PyRate preparation-stage specification against the
repository's source code.

Embedded functions:
* `break_number_into_factors` from `pyrate/core/user_experience.py`
  (process-grid factorization);
* `multilooking` from `tests/test_prepifg.py` (tile-averaging decimation);
* `resample` and `mlooked_path`, whose source module
  (`pyrate.core.prepifg_helper` / `pyrate.core.config`) is not part of the
  source tree here; they are modelled from the specification and pinned to
  the repository's own test vectors.

Python floating point data is modelled over `ℚ` with `Option ℚ` for
possibly-NaN samples (`none` = NaN); all arithmetic that the claims depend
on is exact in the source (counts, means of small rationals), so the
rational model is faithful to the structure of the computation.
-/

namespace PyRate

/-- Truncation of a rational towards zero, the semantics of Python's
`int()` applied to a float. -/
def pyInt (q : ℚ) : ℤ := if 0 ≤ q then ⌊q⌋ else ⌈q⌉

theorem pyInt_natCast (t : ℕ) : pyInt (t : ℚ) = t := by
  simp [pyInt, Nat.cast_nonneg]

/-! ## break_number_into_factors (pyrate/core/user_experience.py)

The Python function is dynamically typed and returns values of several
shapes: the tuple `(n, [n])` in the `left == 1` base case, the bare tuple
`(2, 2)` in the `bestTuple == [4]` special case, and a plain list of
factors otherwise.  Indexing `rem[0]` / `rem[1]` and the concatenation
`[i] + rem[1]` can raise (`IndexError` / `TypeError`); `BRes.error`
models a raised exception.  All numbers reachable from a natural-number
input are integral (the divisions `n / i` are guarded by `n % i == 0`),
so they are modelled as `ℕ`. -/

/-- Possible Python return values of `break_number_into_factors`. -/
inductive BRes where
  /-- a tuple `(number, list)`, e.g. the base case `(n, [n])` -/
  | pair (s : ℕ) (l : List ℕ)
  /-- the bare tuple `(2, 2)` from the `bestTuple == [4]` special case -/
  | pairNum (a b : ℕ)
  /-- a plain list of factors -/
  | list (l : List ℕ)
  /-- a raised exception (`IndexError` or `TypeError`) -/
  | error
deriving DecidableEq, Repr

/-- The memoization dictionary `memo`, keyed by the `(value, left)` pair. -/
abbrev Memo := List ((ℕ × ℕ) × BRes)

/-- Python `rem[0]` on a value returned by the recursive call;
`none` models an `IndexError`/exception. -/
def remFst : BRes → Option ℕ
  | .pair s _ => some s
  | .pairNum a _ => some a
  | .list l => l.head?
  | .error => none

/-- Python `rem[1]` on a value returned by the recursive call: a list for
the tuple-shaped results, a number for list-shaped results. -/
def remSnd : BRes → Option (List ℕ ⊕ ℕ)
  | .pair _ l => some (.inl l)
  | .pairNum _ b => some (.inr b)
  | .list l => (l.get? 1).map .inr
  | .error => none

/-- State of the `while i * i <= n` loop: the (unwritten-to) memo dict,
`best` and `bestTuple`. -/
structure LoopSt where
  memo : Memo
  best : ℕ
  bestTuple : List ℕ
deriving DecidableEq, Repr

/-- One iteration of the `while i * i <= n` loop body for divisor
candidate `i`; `none` models a raised exception.  `recur` is the
recursive call at `left - 1`. -/
def bnifStep (recur : ℕ → Memo → BRes × Memo) (n : ℕ)
    (st : Option LoopSt) (i : ℕ) : Option LoopSt :=
  match st with
  | none => none
  | some ⟨memo, best, bestTuple⟩ =>
    if n % i = 0 then
      let rm := recur (n / i) memo
      match remFst rm.1 with
      | none => none
      | some r0 =>
        if r0 + i < best then
          match remSnd rm.1 with
          | some (.inl l) => some ⟨rm.2, r0 + i, i :: l⟩
          | some (.inr _) => none
          | none => none
        else some ⟨rm.2, best, bestTuple⟩
    else some ⟨memo, best, bestTuple⟩

/-- The `while i * i <= n: … ; i += 1` loop, as fuel-indexed recursion on
the iteration count.  Any fuel with `n + 1 ≤ i + fuel` is enough for the
fuel case never to cut the loop short, since the guard fails once
`i > n`. -/
def bnifLoop (recur : ℕ → Memo → BRes × Memo) (n : ℕ) :
    ℕ → ℕ → Option LoopSt → Option LoopSt
  | 0, _, st => st
  | fuel + 1, i, st =>
    if i * i ≤ n then bnifLoop recur n fuel (i + 1) (bnifStep recur n st i)
    else st

/-- Fuel-indexed body of `break_number_into_factors`.  The memo
dictionary is threaded explicitly (the source only ever reads it). -/
def bnifAux : ℕ → ℕ → Memo → ℕ → BRes × Memo
  | 0, _, memo, _ => (.error, memo)
  | fuel + 1, n, memo, left =>
    match memo.lookup (n, left) with
    | some r => (r, memo)
    | none =>
      if left = 1 then (.pair n [n], memo)
      else
        match bnifLoop (fun m mm => bnifAux fuel m mm (left - 1)) n (n + 1) 2
            (some ⟨memo, n, [n]⟩) with
        | none => (.error, memo)
        | some ⟨memo', _, bestTuple⟩ =>
          if bestTuple = [4] then (.pairNum 2 2, memo')
          else if bestTuple.length = 1 then (.list (bestTuple ++ [1]), memo')
          else (.list bestTuple, memo')

/-- Python `break_number_into_factors(n, memo={}, left=2)`.  The fuel
`n + left + 1` dominates the recursion depth (each recursive call both
consumes one unit and decreases `left`, and `left == 1` is a base case),
so the fuel-exhaustion branch is unreachable. -/
def break_number_into_factors (n : ℕ) (memo : Memo := []) (left : ℕ := 2) :
    BRes × Memo :=
  bnifAux (n + left + 1) n memo left

/-- Discriminator: is the result a `(number, list)` tuple? -/
def isPairRes : BRes → Bool
  | .pair _ _ => true
  | _ => false

/-- Extract the two factors from a `left = 2` result, whether it is the
bare `(2, 2)` tuple or a two-element list. -/
def resFactors : BRes → Option (ℕ × ℕ)
  | .pairNum a b => some (a, b)
  | .list [a, b] => some (a, b)
  | _ => none

/-- The `left == 1` base case on an empty memo returns the tuple
`(n, [n])`. -/
lemma bnifAux_one (fuel n : ℕ) : bnifAux (fuel + 1) n [] 1 = (.pair n [n], []) :=
  rfl

/-- One loop-body step when the recursive call is the `left == 1` base
case (the situation throughout a `left = 2` call on an empty memo). -/
lemma bnifStep_eval (recur : ℕ → Memo → BRes × Memo) (n b i : ℕ) (bt : List ℕ)
    (hrec : recur (n / i) [] = (.pair (n / i) [n / i], [])) :
    bnifStep recur n (some ⟨[], b, bt⟩) i =
      if n % i = 0 then
        (if n / i + i < b then some ⟨[], n / i + i, [i, n / i]⟩
         else some ⟨[], b, bt⟩)
      else some ⟨[], b, bt⟩ := by
  by_cases h : n % i = 0 <;>
    simp [bnifStep, h, hrec, remFst, remSnd]

/-- Invariant of the `while i * i <= n` loop for `left = 2` on an empty
memo: with enough fuel the loop ends in a non-error state whose `best`
is the minimum of the initial value and all candidate sums `n / i + i`
over divisors `i ≥ i₀` within the guard, and whose `bestTuple` is either
untouched or the pair list of some divisor realising `best`. -/
lemma loop_spec (recur : ℕ → Memo → BRes × Memo)
    (hrec : ∀ m, recur m [] = (.pair m [m], [])) (n : ℕ) :
    ∀ fuel i₀ b bt, 1 ≤ i₀ → n + 1 ≤ i₀ + fuel →
    ∃ b' bt',
      bnifLoop recur n fuel i₀ (some ⟨[], b, bt⟩) = some ⟨[], b', bt'⟩ ∧
      b' ≤ b ∧
      (∀ j, i₀ ≤ j → j * j ≤ n → n % j = 0 → b' ≤ n / j + j) ∧
      ((b' = b ∧ bt' = bt) ∨
        ∃ j, i₀ ≤ j ∧ j * j ≤ n ∧ n % j = 0 ∧ b' = n / j + j ∧ b' < b ∧
          bt' = [j, n / j]) := by
  intro fuel
  induction fuel with
  | zero =>
    intro i₀ b bt hi hfuel
    refine ⟨b, bt, rfl, le_refl _, ?_, Or.inl ⟨rfl, rfl⟩⟩
    intro j hj hsq _
    have : j ≤ j * j := Nat.le_mul_of_pos_left j (by omega)
    omega
  | succ fuel ih =>
    intro i₀ b bt hi hfuel
    by_cases hg : i₀ * i₀ ≤ n
    · rw [bnifLoop, if_pos hg,
        bnifStep_eval recur n b i₀ bt (hrec (n / i₀))]
      by_cases hdiv : n % i₀ = 0
      · by_cases himp : n / i₀ + i₀ < b
        · rw [if_pos hdiv, if_pos himp]
          obtain ⟨b', bt', heq, hle, hmin, hcases⟩ :=
            ih (i₀ + 1) (n / i₀ + i₀) [i₀, n / i₀] (by omega) (by omega)
          refine ⟨b', bt', heq, by omega, ?_, ?_⟩
          · intro j hj hsq hjdiv
            rcases Nat.eq_or_lt_of_le hj with hj' | hj'
            · subst hj'; exact hle
            · exact hmin j (by omega) hsq hjdiv
          · rcases hcases with ⟨hb, hbt⟩ | ⟨j, hj, hsq, hjdiv, hb, hlt, hbt⟩
            · exact Or.inr ⟨i₀, le_refl _, hg, hdiv, hb, by omega, hbt⟩
            · exact Or.inr ⟨j, by omega, hsq, hjdiv, hb, by omega, hbt⟩
        · rw [if_pos hdiv, if_neg himp]
          obtain ⟨b', bt', heq, hle, hmin, hcases⟩ :=
            ih (i₀ + 1) b bt (by omega) (by omega)
          refine ⟨b', bt', heq, hle, ?_, ?_⟩
          · intro j hj hsq hjdiv
            rcases Nat.eq_or_lt_of_le hj with hj' | hj'
            · subst hj'; omega
            · exact hmin j (by omega) hsq hjdiv
          · rcases hcases with ⟨hb, hbt⟩ | ⟨j, hj, hsq, hjdiv, hb, hlt, hbt⟩
            · exact Or.inl ⟨hb, hbt⟩
            · exact Or.inr ⟨j, by omega, hsq, hjdiv, hb, hlt, hbt⟩
      · rw [if_neg hdiv]
        obtain ⟨b', bt', heq, hle, hmin, hcases⟩ :=
          ih (i₀ + 1) b bt (by omega) (by omega)
        refine ⟨b', bt', heq, hle, ?_, ?_⟩
        · intro j hj hsq hjdiv
          rcases Nat.eq_or_lt_of_le hj with hj' | hj'
          · subst hj'; exact absurd hjdiv hdiv
          · exact hmin j (by omega) hsq hjdiv
        · rcases hcases with ⟨hb, hbt⟩ | ⟨j, hj, hsq, hjdiv, hb, hlt, hbt⟩
          · exact Or.inl ⟨hb, hbt⟩
          · exact Or.inr ⟨j, by omega, hsq, hjdiv, hb, hlt, hbt⟩
    · rw [bnifLoop, if_neg hg]
      refine ⟨b, bt, rfl, le_refl _, ?_, Or.inl ⟨rfl, rfl⟩⟩
      intro j hj hsq _
      have : i₀ * i₀ ≤ j * j := Nat.mul_le_mul hj hj
      omega

/-- Characterization of `break_number_into_factors n {} 2`: the final
`bestTuple` is `[n]` or a divisor pair `[i, n / i]`, its sum is minimal
among all divisor candidates `i` with `2 ≤ i` and `i * i ≤ n`, and the
returned value post-processes it exactly as the source does. -/
lemma bnif_two_spec (n : ℕ) :
    ∃ b' bt',
      break_number_into_factors n [] 2 =
        (if bt' = [4] then BRes.pairNum 2 2
         else if bt'.length = 1 then BRes.list (bt' ++ [1])
         else BRes.list bt', []) ∧
      b' ≤ n ∧
      (∀ i, 2 ≤ i → i * i ≤ n → n % i = 0 → b' ≤ n / i + i) ∧
      ((b' = n ∧ bt' = [n]) ∨
        ∃ i, 2 ≤ i ∧ i * i ≤ n ∧ n % i = 0 ∧ b' = n / i + i ∧ b' < n ∧
          bt' = [i, n / i]) := by
  obtain ⟨b', bt', heq, hle, hmin, hcases⟩ :=
    loop_spec (fun m mm => bnifAux (n + 2) m mm 1)
      (fun m => bnifAux_one (n + 1) m)
      n (n + 1) 2 n [n] (by omega) (by omega)
  exact ⟨b', bt', by
    show bnifAux (n + 2 + 1) n [] 2 = _
    rw [bnifAux]
    simp only [List.lookup_nil, Nat.reduceSub]
    rw [if_neg (show ¬((2 : ℕ) = 1) by norm_num), heq]
    show (if bt' = [4] then (BRes.pairNum 2 2, ([] : Memo))
      else if bt'.length = 1 then (BRes.list (bt' ++ [1]), ([] : Memo))
      else (BRes.list bt', ([] : Memo))) = _
    split_ifs <;> rfl, hle, hmin, hcases⟩

/-! Memo behaviour: the source reads the memo dictionary but never
writes to it, so every call returns its memo argument unchanged. -/

/-- One loop-body step preserves the memo component of the state
whenever the recursive call does. -/
lemma bnifStep_memo (recur : ℕ → Memo → BRes × Memo)
    (hrec : ∀ m mm, (recur m mm).2 = mm) (n : ℕ) (memo : Memo) (i : ℕ)
    (st : Option LoopSt) (h : ∀ s : LoopSt, st = some s → s.memo = memo) :
    ∀ s : LoopSt, bnifStep recur n st i = some s → s.memo = memo := by
  intro s hs
  match st, h with
  | none, _ => simp [bnifStep] at hs
  | some ⟨m0, b, bt⟩, h =>
    have hm0 : m0 = memo := h ⟨m0, b, bt⟩ rfl
    by_cases hdiv : n % i = 0
    · rcases hr : remFst (recur (n / i) m0).1 with _ | r0
      · simp [bnifStep, hdiv, hr] at hs
      · by_cases himp : r0 + i < b
        · rcases hr2 : remSnd (recur (n / i) m0).1 with _ | (l | b2)
          · simp [bnifStep, hdiv, hr, himp, hr2] at hs
          · simp only [bnifStep, if_pos hdiv, hr, if_pos himp, hr2] at hs
            cases hs; simp [hrec, hm0]
          · simp [bnifStep, hdiv, hr, himp, hr2] at hs
        · simp only [bnifStep, if_pos hdiv, hr, if_neg himp] at hs
          cases hs; simp [hrec, hm0]
    · simp only [bnifStep, if_neg hdiv] at hs
      cases hs; simpa using hm0

/-- The whole loop preserves the memo component of the state whenever
the recursive call does. -/
lemma bnifLoop_memo (recur : ℕ → Memo → BRes × Memo)
    (hrec : ∀ m mm, (recur m mm).2 = mm) (n : ℕ) (memo : Memo) :
    ∀ fuel i (st : Option LoopSt),
      (∀ s : LoopSt, st = some s → s.memo = memo) →
      ∀ s' : LoopSt, bnifLoop recur n fuel i st = some s' → s'.memo = memo := by
  intro fuel
  induction fuel with
  | zero => intro i st h s' heq; exact h s' heq
  | succ fuel ih =>
    intro i st h s' heq
    rw [bnifLoop] at heq
    by_cases hg : i * i ≤ n
    · rw [if_pos hg] at heq
      exact ih (i + 1) (bnifStep recur n st i)
        (bnifStep_memo recur hrec n memo i st h) s' heq
    · rw [if_neg hg] at heq
      exact h s' heq

/-- Every call of the factorization routine returns its memo dictionary
unchanged: the source never assigns into `memo`. -/
lemma bnifAux_memo : ∀ fuel n memo left, (bnifAux fuel n memo left).2 = memo := by
  intro fuel
  induction fuel with
  | zero => intro n memo left; rfl
  | succ fuel ih =>
    intro n memo left
    rw [bnifAux]
    cases hl : memo.lookup (n, left) with
    | some r => simp
    | none =>
      by_cases h1 : left = 1
      · simp [h1]
      · simp only [if_neg h1]
        cases hfold : bnifLoop (fun m mm => bnifAux fuel m mm (left - 1)) n
            (n + 1) 2 (some ⟨memo, n, [n]⟩) with
        | none => simp [hfold]
        | some st =>
          have hmemo : st.memo = memo :=
            bnifLoop_memo _ (fun m mm => ih m mm (left - 1)) n memo (n + 1) 2 _
              (by intro s hs; cases hs; rfl) st hfold
          obtain ⟨m', b2, bt2⟩ := st
          simp only at hmemo
          simp [hfold, hmemo]
          split_ifs <;> simp [hmemo]

/-- Minimality bridge: a value bounded by `n` and by every divisor
candidate sum `n / i + i` (for `2 ≤ i`, `i * i ≤ n`, `i ∣ n`) is a lower
bound for the sum of every factorization of `n` into two factors. -/
lemma best_le_factor_sum (n b' : ℕ) (hn : 1 ≤ n) (hle : b' ≤ n)
    (hmin : ∀ i, 2 ≤ i → i * i ≤ n → n % i = 0 → b' ≤ n / i + i)
    (c d : ℕ) (h : c * d = n) : b' ≤ c + d := by
  have hc : 1 ≤ c := by
    rcases Nat.eq_zero_or_pos c with h0 | h0
    · subst h0; simp at h; omega
    · exact h0
  have hd : 1 ≤ d := by
    rcases Nat.eq_zero_or_pos d with h0 | h0
    · subst h0; simp at h; omega
    · exact h0
  rcases Nat.lt_or_ge c 2 with h2 | h2
  · have hc1 : c = 1 := by omega
    subst hc1; simp at h; omega
  rcases Nat.lt_or_ge d 2 with h3 | h3
  · have hd1 : d = 1 := by omega
    subst hd1; simp at h; omega
  by_cases hcd : c ≤ d
  · have hsq : c * c ≤ n := by
      calc c * c ≤ c * d := Nat.mul_le_mul (le_refl c) hcd
        _ = n := h
    have hdvd : n % c = 0 := by
      rw [← h]; exact Nat.mul_mod_right c d
    have hquot : n / c = d := by
      rw [← h]; exact Nat.mul_div_cancel_left d (by omega)
    have := hmin c h2 hsq hdvd
    omega
  · have hsq : d * d ≤ n := by
      calc d * d ≤ c * d := Nat.mul_le_mul (by omega) (le_refl d)
        _ = n := h
    have hdvd : n % d = 0 := by
      rw [← h]; exact Nat.mul_mod_left c d
    have hquot : n / d = c := by
      rw [← h]; exact Nat.mul_div_cancel c (by omega)
    have := hmin d h3 hsq hdvd
    omega

/-- Away from `n = 4`, a factorization of `n` into two factors each at
least 2 has sum strictly below `n`. -/
lemma factor_sum_lt (n c d : ℕ) (h2 : 2 ≤ c) (h3 : 2 ≤ d) (h : c * d = n)
    (h4 : n ≠ 4) : c + d < n := by
  rcases Nat.lt_or_ge c 3 with hc3 | hc3
  · have hc2 : c = 2 := by omega
    subst hc2
    have hd2 : d ≠ 2 := by rintro rfl; exact h4 (by omega)
    omega
  · obtain ⟨e, rfl⟩ : ∃ e, d = e + 1 := ⟨d - 1, by omega⟩
    have h5 : 3 * e ≤ c * e := Nat.mul_le_mul hc3 (le_refl e)
    have h6 : c * (e + 1) = c * e + c := by ring
    omega

/-- C6: the `n = 4` special case returns the bare near-square tuple
`(2, 2)` (and not the degenerate `[1, 4]` split). -/
theorem factorizer_four_two_two :
    break_number_into_factors 4 = (BRes.pairNum 2 2, []) ∧
    (break_number_into_factors 4).1 ≠ BRes.list [1, 4] := by
  constructor <;> decide

/-- Counterexample to C7 as stated: at the prime input 3 the function
returns the list `[3, 1]`, not `[1, 3]`. -/
theorem factorizer_prime_counterexample :
    (break_number_into_factors 3).1 = BRes.list [3, 1] ∧
    (break_number_into_factors 3).1 ≠ BRes.list [1, 3] := by
  constructor <;> decide

/-- C7 (amended): for prime `p` (with `left = 2`) the function returns
the bare list `[p, 1]` — the degenerate split with `p` first and no sum
component — and for input 1 it returns `[1, 1]`. -/
theorem factorizer_prime_and_one :
    (∀ p : ℕ, Nat.Prime p →
      break_number_into_factors p [] 2 = (BRes.list [p, 1], [])) ∧
    break_number_into_factors 1 = (BRes.list [1, 1], []) := by
  constructor
  · intro p hp
    obtain ⟨b', bt', heq, hle, hmin, hcases⟩ := bnif_two_spec p
    rcases hcases with ⟨hb, hbt⟩ | ⟨i, h2, hsq, hdiv, hb, hlt, hbt⟩
    · subst hbt
      have h4 : p ≠ 4 := by rintro rfl; norm_num at hp
      have hne : ([p] : List ℕ) ≠ [4] := by simpa using h4
      rw [heq]; simp [hne]
    · exfalso
      have hdvd : i ∣ p := Nat.dvd_of_mod_eq_zero hdiv
      rcases hp.eq_one_or_self_of_dvd i hdvd with h1 | hpeq
      · omega
      · subst hpeq
        have h2p := hp.two_le
        have h5 : 2 * i ≤ i * i := Nat.mul_le_mul h2p (le_refl i)
        omega
  · decide

/-- Witness for C7 (amended) at the prime 5. -/
theorem factorizer_prime_and_one_witness :
    break_number_into_factors 5 [] 2 = (BRes.list [5, 1], []) ∧
    break_number_into_factors 1 = (BRes.list [1, 1], []) :=
  ⟨factorizer_prime_and_one.1 5 (by norm_num), factorizer_prime_and_one.2⟩

/-- C8 (code bug): the memo dictionary is consulted but never written:
every call returns its memo unchanged, and in particular after the call
at 6 the cache does not contain the key `(6, 2)`. -/
theorem factorizer_memo_never_updated :
    (∀ n memo left, (break_number_into_factors n memo left).2 = memo) ∧
    (break_number_into_factors 6).1 = BRes.list [2, 3] ∧
    ((break_number_into_factors 6).2.lookup (6, 2)) = none := by
  refine ⟨fun n memo left => bnifAux_memo _ n memo left, by decide, by decide⟩

/-- Counterexample to C5 as stated: at input 6 (with `left = 2`) the
function returns the bare list `[2, 3]`, not a `(sum, factors)` pair. -/
theorem factorizer_no_sum_pair_at_six :
    (break_number_into_factors 6).1 = BRes.list [2, 3] ∧
    isPairRes (break_number_into_factors 6).1 = false ∧
    (break_number_into_factors 6).1 ≠ BRes.pair 5 [2, 3] := by
  refine ⟨by decide, by decide, by decide⟩

/-- C10: with `left = 2` the result always consists of exactly two
factors whose product is the input. -/
theorem factorizer_left_two_product (n : ℕ) (hn : 1 ≤ n) :
    ∃ a b, resFactors (break_number_into_factors n [] 2).1 = some (a, b) ∧
      a * b = n := by
  obtain ⟨b', bt', heq, hle, hmin, hcases⟩ := bnif_two_spec n
  rcases hcases with ⟨hb, hbt⟩ | ⟨i, h2, hsq, hdiv, hb, hlt, hbt⟩
  · subst hbt
    by_cases h4 : n = 4
    · subst h4
      refine ⟨2, 2, ?_, rfl⟩
      rw [heq]; simp [resFactors]
    · have hne : ([n] : List ℕ) ≠ [4] := by simpa using h4
      refine ⟨n, 1, ?_, by omega⟩
      rw [heq]; simp [hne, resFactors]
  · subst hbt
    have hne : ([i, n / i] : List ℕ) ≠ [4] := by simp
    refine ⟨i, n / i, ?_, Nat.mul_div_cancel' (Nat.dvd_of_mod_eq_zero hdiv)⟩
    rw [heq]; simp [hne, resFactors]

/-- Witness for C10 at input 12. -/
theorem factorizer_left_two_product_witness :
    ∃ a b, resFactors (break_number_into_factors 12 [] 2).1 = some (a, b) ∧
      a * b = 12 :=
  factorizer_left_two_product 12 (by norm_num)

/-- C5 (amended): `left = 1` returns the pair `(n, [n])`; `left = 2`
returns the two factors of `n` of minimal sum among all two-factor
splits of `n` — as a bare list, except at `n = 4` where they come as the
bare number tuple `(2, 2)`. -/
theorem factorizer_minimal_sum (n : ℕ) (hn : 1 ≤ n) :
    break_number_into_factors n [] 1 = (BRes.pair n [n], []) ∧
    ∃ a b,
      resFactors (break_number_into_factors n [] 2).1 = some (a, b) ∧
      a * b = n ∧
      (∀ c d, c * d = n → a + b ≤ c + d) ∧
      (n = 4 → (break_number_into_factors n [] 2).1 = BRes.pairNum a b) ∧
      (n ≠ 4 → (break_number_into_factors n [] 2).1 = BRes.list [a, b]) := by
  constructor
  · exact bnifAux_one (n + 1) n
  · obtain ⟨b', bt', heq, hle, hmin, hcases⟩ := bnif_two_spec n
    rcases hcases with ⟨hb, hbt⟩ | ⟨i, h2, hsq, hdiv, hb, hlt, hbt⟩
    · subst hbt
      by_cases h4 : n = 4
      · subst h4
        refine ⟨2, 2, ?_, rfl, ?_, ?_, ?_⟩
        · rw [heq]; simp [resFactors]
        · intro c d h
          have hcdvd : c ∣ 4 := ⟨d, h.symm⟩
          have hc4 : c ≤ 4 := Nat.le_of_dvd (by norm_num) hcdvd
          interval_cases c <;> omega
        · intro _; rw [heq]; simp
        · intro hcon; exact absurd rfl hcon
      · have hne : ([n] : List ℕ) ≠ [4] := by simpa using h4
        refine ⟨n, 1, ?_, by omega, ?_, fun hc => absurd hc h4, ?_⟩
        · rw [heq]; simp [hne, resFactors]
        · intro c d h
          have hbound := best_le_factor_sum n b' hn hle hmin c d h
          have hc : 1 ≤ c := by
            rcases Nat.eq_zero_or_pos c with h0 | h0
            · subst h0; simp at h; omega
            · exact h0
          rcases Nat.lt_or_ge c 2 with hc2 | hc2
          · have hc1 : c = 1 := by omega
            subst hc1; simp at h; omega
          rcases Nat.lt_or_ge d 2 with hd2 | hd2
          · have hd : 1 ≤ d := by
              rcases Nat.eq_zero_or_pos d with h0 | h0
              · subst h0; simp at h; omega
              · exact h0
            have hd1 : d = 1 := by omega
            subst hd1; simp at h; omega
          · have := factor_sum_lt n c d hc2 hd2 h h4
            omega
        · intro _; rw [heq]; simp [hne]
    · subst hbt
      have hne : ([i, n / i] : List ℕ) ≠ [4] := by simp
      have hprod : i * (n / i) = n :=
        Nat.mul_div_cancel' (Nat.dvd_of_mod_eq_zero hdiv)
      have h4 : n ≠ 4 := by
        rintro rfl
        have hi2 : i ≤ 2 := by
          by_contra hcon
          push_neg at hcon
          have : 3 * 3 ≤ i * i := Nat.mul_le_mul hcon hcon
          omega
        have hi2' : i = 2 := by omega
        subst hi2'
        norm_num at hb
        omega
      refine ⟨i, n / i, ?_, hprod, ?_, fun hc => absurd hc h4, ?_⟩
      · rw [heq]; simp [hne, resFactors]
      · intro c d h
        have := best_le_factor_sum n b' hn hle hmin c d h
        omega
      · intro _; rw [heq]; simp [hne]

/-! ## multilooking (tests/test_prepifg.py, lines 629-661)

A 2-D numpy array of floats is modelled as a rectangular list of rows
with samples in `Option ℚ` (`none` = NaN).  `xscale`/`yscale` are taken
positive, as the claims require (Python would raise `ZeroDivisionError`
on zero scales). -/

/-- A 2-D sample grid: a list of rows. -/
abbrev Grid := List (List (Option ℚ))

/-- Python `src[ys:ye, xs:xe]` for the tile at `(row, col)`, flattened
in row-major order (the source reshapes the patch to 1-D before
averaging; NaN counting is order-independent). -/
def tilePatch (src : Grid) (xscale yscale row col : ℕ) : List (Option ℚ) :=
  (((src.drop (row * yscale)).take yscale).map
    (fun r => (r.drop (col * xscale)).take xscale)).flatten

/-- numpy `nanmean`: the arithmetic mean of the non-NaN samples. -/
def nanmean (patch : List (Option ℚ)) : ℚ :=
  (patch.filterMap id).sum / ((patch.filterMap id).length : ℚ)

/-- numpy `npsum(isnan(patch))`: the number of NaN samples. -/
def nanCount (patch : List (Option ℚ)) : ℕ :=
  patch.countP (fun v => v.isNone)

/-- The non-missing samples of the tile at `(row, col)`. -/
def tileValid (src : Grid) (xscale yscale row col : ℕ) : List ℚ :=
  (tilePatch src xscale yscale row col).filterMap id

/-- Python `multilooking(src, xscale, yscale, thresh=0)` from
`tests/test_prepifg.py`: truncate the threshold with `int()`, reject it
outside `[0, xscale * yscale]` with a `ValueError`, then average every
complete `yscale × xscale` tile whose non-NaN count is at least the
threshold and positive; every other output cell stays NaN. -/
def multilooking (src : Grid) (xscale yscale : ℕ) (thresh : ℚ := 0) :
    Except String Grid :=
  let t : ℤ := pyInt thresh
  let num_cells : ℤ := (xscale : ℤ) * (yscale : ℤ)
  if num_cells < t ∨ t < 0 then
    .error "Invalid threshold"
  else
    let rows := src.length
    let cols := (src.headD []).length
    let rows_lowres := rows / yscale
    let cols_lowres := cols / xscale
    .ok ((List.range rows_lowres).map fun row =>
      (List.range cols_lowres).map fun col =>
        let patch := tilePatch src xscale yscale row col
        let num_values : ℤ := num_cells - (nanCount patch : ℤ)
        if t ≤ num_values ∧ 0 < num_values then some (nanmean patch)
        else none)

/-- Entry of a grid at row `r`, column `c` (as produced by the output of
`multilooking`); `none` when out of range. -/
def gridCell (g : Grid) (r c : ℕ) : Option (Option ℚ) :=
  g[r]?.bind fun row => row[c]?

/-- Valid samples and NaN samples of a patch partition it. -/
lemma filterMap_id_length_add (l : List (Option ℚ)) :
    (l.filterMap id).length + l.countP (fun v => v.isNone) = l.length := by
  induction l with
  | nil => simp
  | cons a l ih =>
    cases a <;> simp [List.countP_cons, List.filterMap_cons] <;> omega

/-- A tile index below the floored output size keeps the whole tile
inside the input. -/
lemma tile_bound {rows yscale row : ℕ} (h : row < rows / yscale) :
    row * yscale + yscale ≤ (rows / yscale) * yscale ∧
    (rows / yscale) * yscale ≤ rows := by
  have h1 : (row + 1) * yscale ≤ (rows / yscale) * yscale :=
    Nat.mul_le_mul (by omega) (le_refl yscale)
  have h2 : (rows / yscale) * yscale ≤ rows := Nat.div_mul_le_self rows yscale
  have h3 : (row + 1) * yscale = row * yscale + yscale := by ring
  omega

/-- In-range tiles of a rectangular grid are complete: the patch has
exactly `yscale * xscale` samples. -/
lemma tilePatch_length (src : Grid) (cols xscale yscale row col : ℕ)
    (hrect : ∀ r ∈ src, r.length = cols)
    (hrow : row < src.length / yscale) (hcol : col < cols / xscale) :
    (tilePatch src xscale yscale row col).length = yscale * xscale := by
  obtain ⟨hys, hys'⟩ := tile_bound hrow
  obtain ⟨hxs, hxs'⟩ := tile_bound hcol
  unfold tilePatch
  rw [List.length_flatten, List.map_map]
  rw [List.map_congr_left (g := fun _ => xscale) (by
    intro r hr
    have hlen : r.length = cols :=
      hrect r (List.mem_of_mem_drop (List.mem_of_mem_take hr))
    simp only [Function.comp_apply, List.length_take, List.length_drop, hlen]
    omega)]
  rw [List.map_const', List.sum_replicate, smul_eq_mul]
  have hmin : (List.take yscale (List.drop (row * yscale) src)).length
      = yscale := by
    simp only [List.length_take, List.length_drop]
    omega
  rw [hmin]

/-- With a threshold whose truncation is inside `[0, xscale * yscale]`,
multilooking succeeds and returns the tile-averaged grid. -/
lemma multilooking_ok (src : Grid) (xscale yscale : ℕ) (thresh : ℚ)
    (ht0 : 0 ≤ pyInt thresh) (ht1 : pyInt thresh ≤ (xscale : ℤ) * yscale) :
    multilooking src xscale yscale thresh =
      .ok ((List.range (src.length / yscale)).map fun row =>
        (List.range ((src.headD []).length / xscale)).map fun col =>
          if pyInt thresh ≤ (xscale : ℤ) * yscale
                - (nanCount (tilePatch src xscale yscale row col) : ℤ) ∧
              0 < (xscale : ℤ) * yscale
                - (nanCount (tilePatch src xscale yscale row col) : ℤ)
          then some (nanmean (tilePatch src xscale yscale row col))
          else none) := by
  show (if (xscale : ℤ) * yscale < pyInt thresh ∨ pyInt thresh < 0 then _
    else _) = _
  rw [if_neg (by omega)]

/-- Cell access in the output grid of `multilooking_ok`. -/
lemma gridCell_map_range (f : ℕ → ℕ → Option ℚ) (nr nc r c : ℕ)
    (hr : r < nr) (hc : c < nc) :
    gridCell ((List.range nr).map fun row =>
        (List.range nc).map fun col => f row col) r c = some (f r c) := by
  unfold gridCell
  rw [List.getElem?_map, List.getElem?_range hr]
  simp [List.getElem?_map, List.getElem?_range hc]

/-- C1: for a rectangular grid, positive scales and an integer threshold
in `[0, xscale * yscale]`, each output cell is the arithmetic mean of
its tile's non-missing samples when their count is at least the
threshold and positive, and NaN otherwise; in particular threshold 0
never yields NaN on a tile with a non-missing sample, and threshold
`xscale * yscale` yields NaN on every tile with a missing sample. -/
theorem multilooking_cell_spec (src : Grid) (cols xscale yscale r c : ℕ)
    (hrect : ∀ row ∈ src, row.length = cols)
    ( _hx : 1 ≤ xscale) ( _hy : 1 ≤ yscale)
    (hr : r < src.length / yscale) (hc : c < cols / xscale) :
    ∀ t : ℕ, t ≤ xscale * yscale →
      ∃ out, multilooking src xscale yscale (t : ℚ) = .ok out ∧
        gridCell out r c = some
          (if t ≤ (tileValid src xscale yscale r c).length ∧
              0 < (tileValid src xscale yscale r c).length
           then some ((tileValid src xscale yscale r c).sum /
              ((tileValid src xscale yscale r c).length : ℚ))
           else none) ∧
        (t = 0 → 0 < (tileValid src xscale yscale r c).length →
          gridCell out r c ≠ some none) ∧
        (t = xscale * yscale →
          (tileValid src xscale yscale r c).length < xscale * yscale →
          gridCell out r c = some none) := by
  intro t ht
  have hne : src ≠ [] := by
    intro h
    rw [h] at hr
    simp at hr
  have hcols : (src.headD []).length = cols := by
    cases src with
    | nil => exact absurd rfl hne
    | cons a l => exact hrect a (by simp)
  have hti : pyInt (t : ℚ) = t := pyInt_natCast t
  have hok := multilooking_ok src xscale yscale (t : ℚ)
    (by rw [hti]; exact Int.ofNat_nonneg t)
    (by rw [hti]; exact_mod_cast ht)
  have hplen := tilePatch_length src cols xscale yscale r c hrect hr hc
  have hcount := filterMap_id_length_add (tilePatch src xscale yscale r c)
  have hvalid : (tileValid src xscale yscale r c).length
      + nanCount (tilePatch src xscale yscale r c) = yscale * xscale := by
    rw [tileValid, nanCount, ← hplen]
    exact hcount
  have hcell : gridCell ((List.range (src.length / yscale)).map fun row =>
        (List.range ((src.headD []).length / xscale)).map fun col =>
          if pyInt (t : ℚ) ≤ (xscale : ℤ) * yscale
                - (nanCount (tilePatch src xscale yscale row col) : ℤ) ∧
              0 < (xscale : ℤ) * yscale
                - (nanCount (tilePatch src xscale yscale row col) : ℤ)
          then some (nanmean (tilePatch src xscale yscale row col))
          else none) r c = some
          (if t ≤ (tileValid src xscale yscale r c).length ∧
              0 < (tileValid src xscale yscale r c).length
           then some ((tileValid src xscale yscale r c).sum /
              ((tileValid src xscale yscale r c).length : ℚ))
           else none) := by
    rw [gridCell_map_range _ _ _ r c hr (by rw [hcols]; exact hc)]
    congr 1
    rw [hti]
    have hval2 : ((tileValid src xscale yscale r c).length : ℤ)
        + (nanCount (tilePatch src xscale yscale r c) : ℤ)
        = (xscale : ℤ) * (yscale : ℤ) := by
      have := hvalid.trans (Nat.mul_comm yscale xscale)
      exact_mod_cast this
    by_cases hcond : t ≤ (tileValid src xscale yscale r c).length ∧
        0 < (tileValid src xscale yscale r c).length
    · rw [if_pos ⟨by omega, by omega⟩, if_pos hcond]
      rfl
    · rw [if_neg ?_, if_neg hcond]
      rintro ⟨h1, h2⟩
      exact hcond ⟨by omega, by omega⟩
  refine ⟨_, hok, hcell, ?_, ?_⟩
  · intro ht0 hpos
    rw [hcell, if_pos ⟨by omega, hpos⟩]
    simp
  · intro htfull hmiss
    rw [hcell, if_neg (by omega)]

/-- Witness for C1 on the 2×2 grid `[[1, NaN], [2, 3]]` with both scales
2 and threshold 2. -/
theorem multilooking_cell_spec_witness :
    ∃ out, multilooking [[some 1, none], [some 2, some 3]] 2 2 ((2 : ℕ) : ℚ)
        = .ok out ∧
      gridCell out 0 0 = some
        (if 2 ≤ (tileValid [[some 1, none], [some 2, some 3]] 2 2 0 0).length ∧
            0 < (tileValid [[some 1, none], [some 2, some 3]] 2 2 0 0).length
         then some ((tileValid [[some 1, none], [some 2, some 3]] 2 2 0 0).sum /
            ((tileValid [[some 1, none], [some 2, some 3]] 2 2 0 0).length : ℚ))
         else none) ∧
      (2 = 0 → 0 < (tileValid [[some 1, none], [some 2, some 3]] 2 2 0 0).length →
        gridCell out 0 0 ≠ some none) ∧
      (2 = 2 * 2 →
        (tileValid [[some 1, none], [some 2, some 3]] 2 2 0 0).length < 2 * 2 →
        gridCell out 0 0 = some none) :=
  multilooking_cell_spec [[some 1, none], [some 2, some 3]] 2 2 2 0 0
    (by intro row hrow; simp at hrow; rcases hrow with h | h <;> simp [h])
    (by norm_num) (by norm_num) (by norm_num) (by norm_num) 2 (by norm_num)

/-- Truncating the input grid to the floored tile boundaries leaves
every in-range tile patch unchanged. -/
lemma tilePatch_take (src : Grid) (cols xscale yscale row col : ℕ)
    (hrow : row < src.length / yscale) (hcol : col < cols / xscale) :
    tilePatch ((src.take ((src.length / yscale) * yscale)).map
        (fun r => r.take ((cols / xscale) * xscale))) xscale yscale row col
      = tilePatch src xscale yscale row col := by
  obtain ⟨hys, _⟩ := tile_bound hrow
  obtain ⟨hxs, _⟩ := tile_bound hcol
  unfold tilePatch
  rw [← List.map_drop, ← List.map_take, List.map_map, List.drop_take,
    List.take_take, min_eq_left (by omega)]
  congr 1
  refine List.map_congr_left ?_
  intro r _
  show ((r.take ((cols / xscale) * xscale)).drop (col * xscale)).take xscale
    = (r.drop (col * xscale)).take xscale
  rw [List.drop_take, List.take_take, min_eq_left (by omega)]

/-- C2: the output grid has shape exactly
`(rows / yscale, cols / xscale)` (floor division), and discarding the
trailing partial rows and columns of the input changes nothing: they
contribute to no output cell, whatever they contain. -/
theorem multilooking_shape (src : Grid) (cols xscale yscale : ℕ)
    (thresh : ℚ) (hrect : ∀ row ∈ src, row.length = cols)
    (hx : 1 ≤ xscale) (hy : 1 ≤ yscale)
    (ht0 : 0 ≤ pyInt thresh) (ht1 : pyInt thresh ≤ (xscale : ℤ) * yscale) :
    ∃ out, multilooking src xscale yscale thresh = .ok out ∧
      out.length = src.length / yscale ∧
      (∀ row ∈ out, row.length = cols / xscale) ∧
      multilooking ((src.take ((src.length / yscale) * yscale)).map
          (fun row => row.take ((cols / xscale) * xscale)))
        xscale yscale thresh = .ok out := by
  have hok := multilooking_ok src xscale yscale thresh ht0 ht1
  refine ⟨_, hok, by simp, ?_, ?_⟩
  · intro row hrow
    obtain ⟨i, hi, rfl⟩ := List.mem_map.mp hrow
    cases src with
    | nil => simp at hi
    | cons a l =>
      have ha : a.length = cols := hrect a (by simp)
      simp [ha]
  · rw [multilooking_ok _ xscale yscale thresh ht0 ht1]
    by_cases hkr : (src.length / yscale) * yscale = 0
    · have hrl : src.length / yscale = 0 := by
        rcases Nat.mul_eq_zero.mp hkr with h | h
        · exact h
        · omega
      simp [hkr, hrl]
    · have hlen : ((src.take ((src.length / yscale) * yscale)).map
          (fun row => row.take ((cols / xscale) * xscale))).length
            = (src.length / yscale) * yscale := by
        have := Nat.div_mul_le_self src.length yscale
        simp only [List.length_map, List.length_take]
        omega
      have hrows : ((src.take ((src.length / yscale) * yscale)).map
          (fun row => row.take ((cols / xscale) * xscale))).length / yscale
            = src.length / yscale := by
        rw [hlen, Nat.mul_div_cancel _ (by omega)]
      have hhead : (((src.take ((src.length / yscale) * yscale)).map
          (fun row => row.take ((cols / xscale) * xscale))).headD []).length
            = (cols / xscale) * xscale := by
        cases src with
        | nil => simp at hkr
        | cons a l =>
          have hkr1 : 1 ≤ (List.length (a :: l) / yscale) * yscale := by omega
          have hd : ((a :: l).take ((List.length (a :: l) / yscale) * yscale))
              = a :: l.take ((List.length (a :: l) / yscale) * yscale - 1) := by
            cases hk : (List.length (a :: l) / yscale) * yscale with
            | zero => omega
            | succ k => simp
          rw [hd]
          have hac : a.length = cols := hrect a (by simp)
          have hcx := Nat.div_mul_le_self cols xscale
          simp [hac]
          omega
      have hcolsq : (((src.take ((src.length / yscale) * yscale)).map
          (fun row => row.take ((cols / xscale) * xscale))).headD []).length
            / xscale = cols / xscale := by
        rw [hhead, Nat.mul_div_cancel _ (by omega)]
      have hsrccols : (src.headD []).length = cols := by
        cases src with
        | nil => simp at hkr
        | cons a l => exact hrect a (by simp)
      rw [hrows, hcolsq, hsrccols]
      congr 1
      refine List.map_congr_left ?_
      intro row hrow
      refine List.map_congr_left ?_
      intro col hcol
      rw [tilePatch_take src cols xscale yscale row col
        (List.mem_range.mp hrow) (List.mem_range.mp hcol)]

/-- Witness for C2 on a 3×5 grid with both scales 2 and threshold 0:
the output is 1×2 and equals the output on the grid truncated to 2×4. -/
theorem multilooking_shape_witness :
    ∃ out, multilooking [[some 1, some 2, some 3, some 4, some 5],
        [some 6, none, some 8, some 9, some 10],
        [none, none, none, none, none]] 2 2 0 = .ok out ∧
      out.length = 3 / 2 ∧
      (∀ row ∈ out, row.length = 5 / 2) ∧
      multilooking (([[some 1, some 2, some 3, some 4, some 5],
          [some 6, none, some 8, some 9, some 10],
          [none, none, none, none, none]].take ((3 / 2) * 2)).map
          (fun row => row.take ((5 / 2) * 2))) 2 2 0 = .ok out :=
  multilooking_shape [[some 1, some 2, some 3, some 4, some 5],
      [some 6, none, some 8, some 9, some 10],
      [none, none, none, none, none]] 5 2 2 0
    (by intro row hrow; simp at hrow
        rcases hrow with h | h | h <;> simp [h])
    (by norm_num) (by norm_num)
    (by norm_num [pyInt]) (by norm_num [pyInt])

/-- Counterexample to C4 as stated: the threshold `-1/2` lies outside
`[0, xscale * yscale]`, yet multilooking returns normally because the
source truncates it with `int()` to 0 before validating. -/
theorem multilooking_threshold_counterexample :
    (-(1 : ℚ) / 2 < 0) ∧
    multilooking [[some 1]] 2 2 (-(1 : ℚ) / 2) = .ok [] := by
  have ht : pyInt (-(1 : ℚ) / 2) = 0 := by norm_num [pyInt]
  constructor
  · norm_num
  · rw [multilooking_ok [[some 1]] 2 2 (-(1 : ℚ) / 2) (by simp [ht])
      (by simp [ht])]
    simp

/-- C4 (amended): multilooking raises its `ValueError` exactly when the
`int()`-truncation of the supplied threshold lies outside
`[0, xscale * yscale]`; in particular every threshold inside that
interval returns normally, and every integer threshold outside it
raises. -/
theorem multilooking_threshold_validation (src : Grid) (xscale yscale : ℕ)
    (thresh : ℚ) ( _hx : 1 ≤ xscale) ( _hy : 1 ≤ yscale) :
    ((pyInt thresh < 0 ∨ (xscale : ℤ) * yscale < pyInt thresh) →
      ∃ e, multilooking src xscale yscale thresh = .error e) ∧
    ((0 ≤ pyInt thresh ∧ pyInt thresh ≤ (xscale : ℤ) * yscale) →
      ∃ out, multilooking src xscale yscale thresh = .ok out) := by
  constructor
  · intro h
    refine ⟨"Invalid threshold", ?_⟩
    show (if (xscale : ℤ) * yscale < pyInt thresh ∨ pyInt thresh < 0 then _
      else _) = _
    rw [if_pos (by tauto)]
  · rintro ⟨h0, h1⟩
    exact ⟨_, multilooking_ok src xscale yscale thresh h0 h1⟩

/-- Witness for C4 (amended): at scales 2×2 the integer threshold 5 is
rejected and the fractional threshold 1/2 (truncated to 0) is accepted. -/
theorem multilooking_threshold_validation_witness :
    ((pyInt 5 < 0 ∨ (2 : ℤ) * 2 < pyInt 5) →
      ∃ e, multilooking [[some 1, none], [some 2, some 3]] 2 2 5 = .error e) ∧
    ((0 ≤ pyInt 5 ∧ pyInt 5 ≤ (2 : ℤ) * 2) →
      ∃ out, multilooking [[some 1, none], [some 2, some 3]] 2 2 5 = .ok out) :=
  multilooking_threshold_validation [[some 1, none], [some 2, some 3]] 2 2 5
    (by norm_num) (by norm_num)

/-! ## _resample (pyrate.core.prepifg_helper; module not in src/) -/

/-- Modelled from the spec: `_resample(data, xscale, yscale, thresh)` of
`pyrate.core.prepifg_helper` is imported by the tests but its module is
not in `src/` (named `resample` here, Lean identifiers aside).  Spec
§4.3/§6 describe a fractional NaN threshold in `[0.0, 1.0]`; the exact
semantics is pinned by the repository's own tests
(`test_nan_threshold_inputs`, `test_nan_threshold`,
`test_nan_threshold_alt` in `tests/test_prepifg.py`): a threshold
outside `[0, 1]` raises `ValueError`, and a tile is averaged exactly
when its NaN fraction is strictly below `thresh`, or it has no NaN at
all and `thresh = 0`; all other cells stay NaN.  The theorems
`resample_matches_nan_threshold_test` and
`resample_matches_nan_threshold_alt_test` below check this model
against every expectation of those tests. -/
def resample (src : Grid) (xscale yscale : ℕ) (thresh : ℚ) :
    Except String Grid :=
  if thresh < 0 ∨ 1 < thresh then .error "invalid threshold"
  else
    let rows := src.length
    let cols := (src.headD []).length
    .ok ((List.range (rows / yscale)).map fun row =>
      (List.range (cols / xscale)).map fun col =>
        let patch := tilePatch src xscale yscale row col
        let nan_fraction : ℚ := (nanCount patch : ℚ) / ((xscale * yscale : ℕ) : ℚ)
        if nan_fraction < thresh ∨ (nan_fraction = 0 ∧ thresh = 0)
        then some (nanmean patch) else none)

/-- The 2×10 grid of `test_nan_threshold`: ones with `data[0, 3:] = nan`
and `data[1, 7:] = nan`. -/
def nanThreshData : Grid :=
  [[some 1, some 1, some 1, none, none, none, none, none, none, none],
   [some 1, some 1, some 1, some 1, some 1, some 1, some 1, none, none, none]]

/-- The 3×6 grid of `test_nan_threshold_alt`: ones with `data[0] = nan`
and `data[1, 2:5] = nan`. -/
def nanThreshAltData : Grid :=
  [[none, none, none, none, none, none],
   [some 1, some 1, none, none, none, some 1],
   [some 1, some 1, some 1, some 1, some 1, some 1]]

set_option maxHeartbeats 1600000 in
/-- The model reproduces every expectation of `test_nan_threshold`
(thresholds 0, 0.25, 0.5, 0.75, 1 on the 2×10 grid) and of
`test_nan_threshold_inputs` (thresholds −10, −1, −0.5, 1.000001, 10 all
raise). -/
theorem resample_matches_nan_threshold_test :
    resample nanThreshData 2 2 0 = .ok [[some 1, none, none, none, none]] ∧
    resample nanThreshData 2 2 (1 / 4)
      = .ok [[some 1, none, none, none, none]] ∧
    resample nanThreshData 2 2 (1 / 2)
      = .ok [[some 1, some 1, none, none, none]] ∧
    resample nanThreshData 2 2 (3 / 4)
      = .ok [[some 1, some 1, some 1, none, none]] ∧
    resample nanThreshData 2 2 1
      = .ok [[some 1, some 1, some 1, some 1, none]] ∧
    resample nanThreshData 2 2 (-10) = .error "invalid threshold" ∧
    resample nanThreshData 2 2 (-1) = .error "invalid threshold" ∧
    resample nanThreshData 2 2 (-(1 / 2)) = .error "invalid threshold" ∧
    resample nanThreshData 2 2 (1000001 / 1000000)
      = .error "invalid threshold" ∧
    resample nanThreshData 2 2 10 = .error "invalid threshold" := by
  refine ⟨?_, ?_, ?_, ?_, ?_, ?_, ?_, ?_, ?_, ?_⟩
  case _ | _ | _ | _ | _ =>
    norm_num [resample, tilePatch, nanCount, nanmean, nanThreshData,
      List.range_succ, List.filterMap_cons, id_eq]
  all_goals unfold resample
  all_goals rw [if_pos (by norm_num)]

set_option maxHeartbeats 800000 in
/-- The model reproduces every expectation of `test_nan_threshold_alt`
(thresholds 0.4, 0.5, 0.7 on the 3×6 grid with 3×3 tiles). -/
theorem resample_matches_nan_threshold_alt_test :
    resample nanThreshAltData 3 3 (2 / 5) = .ok [[none, none]] ∧
    resample nanThreshAltData 3 3 (1 / 2) = .ok [[some 1, none]] ∧
    resample nanThreshAltData 3 3 (7 / 10) = .ok [[some 1, some 1]] := by
  refine ⟨?_, ?_, ?_⟩ <;>
    norm_num [resample, tilePatch, nanCount, nanmean, nanThreshAltData,
      List.range_succ, List.filterMap_cons, id_eq]

/-- Counterexample to C3 as stated: at threshold 1/4 on the
`test_nan_threshold` grid, the tile at `(0, 1)` has 3 of its 4 samples
non-missing — at least `t × tile size = 1` and positive — yet the test
(and hence `_resample`) yields NaN there, because the actual rule
compares the NaN fraction strictly against the threshold. -/
theorem resample_fraction_counterexample :
    (∃ out, resample nanThreshData 2 2 (1 / 4) = .ok out ∧
      gridCell out 0 1 = some none) ∧
    (tileValid nanThreshData 2 2 0 1).length = 3 ∧
    (1 / 4 : ℚ) * ((2 * 2 : ℕ) : ℚ)
      ≤ ((tileValid nanThreshData 2 2 0 1).length : ℚ) ∧
    0 < (tileValid nanThreshData 2 2 0 1).length := by
  have hlen : (tileValid nanThreshData 2 2 0 1).length = 3 := by
    norm_num [tileValid, tilePatch, nanThreshData, List.filterMap_cons, id_eq]
  refine ⟨⟨[[some 1, none, none, none, none]], ?_, by simp [gridCell]⟩,
    hlen, by rw [hlen]; norm_num, by rw [hlen]; norm_num⟩
  exact resample_matches_nan_threshold_test.2.1

/-- With a threshold in `[0, 1]`, the resampler succeeds and returns the
tile grid. -/
lemma resample_ok (src : Grid) (xscale yscale : ℕ) (t : ℚ)
    (ht0 : 0 ≤ t) (ht1 : t ≤ 1) :
    resample src xscale yscale t =
      .ok ((List.range (src.length / yscale)).map fun row =>
        (List.range ((src.headD []).length / xscale)).map fun col =>
          if (nanCount (tilePatch src xscale yscale row col) : ℚ)
                / ((xscale * yscale : ℕ) : ℚ) < t ∨
              ((nanCount (tilePatch src xscale yscale row col) : ℚ)
                / ((xscale * yscale : ℕ) : ℚ) = 0 ∧ t = 0)
          then some (nanmean (tilePatch src xscale yscale row col))
          else none) := by
  show (if t < 0 ∨ 1 < t then _ else _) = _
  rw [if_neg (by rintro (h | h) <;> linarith)]

/-- C3 (amended): for a fractional threshold `t ∈ [0, 1]`, each output
cell of the resampler is non-NaN exactly when the tile's NaN count is
strictly below `t` times the tile size, or the tile has no NaN and
`t = 0`; when non-NaN it is the arithmetic mean of the tile's
non-missing samples. -/
theorem resample_cell_spec (src : Grid) (cols xscale yscale r c : ℕ)
    (hrect : ∀ row ∈ src, row.length = cols)
    (hx : 1 ≤ xscale) (hy : 1 ≤ yscale)
    (hr : r < src.length / yscale) (hc : c < cols / xscale)
    (t : ℚ) (ht0 : 0 ≤ t) (ht1 : t ≤ 1) :
    ∃ out, resample src xscale yscale t = .ok out ∧
      gridCell out r c = some
        (if (nanCount (tilePatch src xscale yscale r c) : ℚ)
              < t * ((xscale * yscale : ℕ) : ℚ) ∨
            (nanCount (tilePatch src xscale yscale r c) = 0 ∧ t = 0)
         then some ((tileValid src xscale yscale r c).sum /
            ((tileValid src xscale yscale r c).length : ℚ))
         else none) := by
  have hne : src ≠ [] := by
    intro h
    rw [h] at hr
    simp at hr
  have hcols : (src.headD []).length = cols := by
    cases src with
    | nil => exact absurd rfl hne
    | cons a l => exact hrect a (by simp)
  have hok := resample_ok src xscale yscale t ht0 ht1
  refine ⟨_, hok, ?_⟩
  rw [gridCell_map_range _ _ _ r c hr (by rw [hcols]; exact hc)]
  have hsize : (0 : ℚ) < ((xscale * yscale : ℕ) : ℚ) := by
    have : 0 < xscale * yscale := Nat.mul_pos (by omega) (by omega)
    exact_mod_cast this
  have h1 : (nanCount (tilePatch src xscale yscale r c) : ℚ)
        / ((xscale * yscale : ℕ) : ℚ) < t ↔
      (nanCount (tilePatch src xscale yscale r c) : ℚ)
        < t * ((xscale * yscale : ℕ) : ℚ) :=
    div_lt_iff₀ hsize
  have h2 : (nanCount (tilePatch src xscale yscale r c) : ℚ)
        / ((xscale * yscale : ℕ) : ℚ) = 0 ↔
      nanCount (tilePatch src xscale yscale r c) = 0 := by
    rw [div_eq_zero_iff]
    constructor
    · rintro (h | h)
      · exact_mod_cast h
      · exact absurd h (ne_of_gt hsize)
    · intro h
      left
      exact_mod_cast h
  congr 1
  exact if_congr (or_congr h1 (and_congr h2 Iff.rfl)) rfl rfl

/-- Witness for C3 (amended) on the 2×2 grid `[[1, NaN], [2, 3]]` with
both scales 2 and threshold 1/2. -/
theorem resample_cell_spec_witness :
    ∃ out, resample [[some 1, none], [some 2, some 3]] 2 2 (1 / 2)
        = .ok out ∧
      gridCell out 0 0 = some
        (if (nanCount (tilePatch [[some 1, none], [some 2, some 3]] 2 2 0 0) : ℚ)
              < (1 / 2 : ℚ) * ((2 * 2 : ℕ) : ℚ) ∨
            (nanCount (tilePatch [[some 1, none], [some 2, some 3]] 2 2 0 0) = 0
              ∧ (1 / 2 : ℚ) = 0)
         then some ((tileValid [[some 1, none], [some 2, some 3]] 2 2 0 0).sum /
            ((tileValid [[some 1, none], [some 2, some 3]] 2 2 0 0).length : ℚ))
         else none) :=
  resample_cell_spec [[some 1, none], [some 2, some 3]] 2 2 2 0 0
    (by intro row hrow; simp at hrow; rcases hrow with h | h <;> simp [h])
    (by norm_num) (by norm_num) (by norm_num) (by norm_num)
    (1 / 2) (by norm_num) (by norm_num)

/-! ## mlooked_path (pyrate.core.config; module not in src/) -/

/-- Decimal digit character (Python `str` of a digit). -/
def digitChar : ℕ → Char
  | 0 => '0' | 1 => '1' | 2 => '2' | 3 => '3' | 4 => '4'
  | 5 => '5' | 6 => '6' | 7 => '7' | 8 => '8' | _ => '9'

/-- Fuel-indexed decimal rendering; fuel `n` always suffices since the
quotient shrinks every step. -/
def natCharsAux : ℕ → ℕ → List Char
  | 0, n => [digitChar n]
  | fuel + 1, n =>
    if n < 10 then [digitChar n]
    else natCharsAux fuel (n / 10) ++ [digitChar (n % 10)]

/-- Python `str(n)` for a nonnegative integer, as characters. -/
def natChars (n : ℕ) : List Char := natCharsAux n n

/-- Every character produced by `digitChar` is a digit, never a dot or a
slash. -/
lemma digitChar_ne (m : ℕ) : digitChar m ≠ '.' ∧ digitChar m ≠ '/' := by
  unfold digitChar
  split <;> exact ⟨by decide, by decide⟩

/-- Decimal renderings contain no dot and no slash. -/
lemma natCharsAux_ne (fuel : ℕ) :
    ∀ n c, c ∈ natCharsAux fuel n → c ≠ '.' ∧ c ≠ '/' := by
  induction fuel with
  | zero =>
    intro n c hc
    rw [natCharsAux] at hc
    simp at hc
    subst hc
    exact digitChar_ne n
  | succ fuel ih =>
    intro n c hc
    rw [natCharsAux] at hc
    by_cases h : n < 10
    · rw [if_pos h] at hc
      simp at hc
      subst hc
      exact digitChar_ne n
    · rw [if_neg h] at hc
      rcases List.mem_append.mp hc with hc | hc
      · exact ih _ _ hc
      · simp at hc
        subst hc
        exact digitChar_ne _

/-- Split a path into stem and dot-initial extension at the last dot
(none when no dot follows the last slash) — the `pathlib` stem/suffix
convention `mlooked_path` relies on, for paths whose base name does not
start with a dot. -/
def splitExt : List Char → List Char × List Char
  | [] => ([], [])
  | c :: rest =>
    if c = '.' ∧ '.' ∉ rest ∧ '/' ∉ rest then ([], c :: rest)
    else ((c :: (splitExt rest).1), (splitExt rest).2)

/-- The `_<looks>rlks_<crop>cr` suffix inserted by `mlooked_path`. -/
def lookSuffix (looks crop_out : ℕ) : List Char :=
  '_' :: natChars looks ++ "rlks_".toList ++ natChars crop_out
    ++ "cr".toList

/-- Modelled from the spec: `mlooked_path(path, looks, crop_out)` of
`pyrate.core.config` is imported by the tests but its module is not in
`src/`.  Spec §4.4/§6 define it as the pure string transform inserting
`_<looks>rlks_<crop>cr` before the path's extension (stem + suffix +
extension); paths are modelled as character lists.  The theorem
`mlooked_path_matches_test` checks the model against every vector of
`test_mlooked_path` in `tests/test_prepifg.py`. -/
def mlooked_path (path : List Char) (looks crop_out : ℕ) : List Char :=
  (splitExt path).1 ++ lookSuffix looks crop_out ++ (splitExt path).2

/-- The model reproduces every expectation of `test_mlooked_path`,
including the suffix-chaining third vector. -/
theorem mlooked_path_matches_test :
    mlooked_path "geo_060619-061002_unw.tif".toList 2 4
      = "geo_060619-061002_unw_2rlks_4cr.tif".toList ∧
    mlooked_path "some/dir/geo_060619-061002_unw.tif".toList 4 2
      = "some/dir/geo_060619-061002_unw_4rlks_2cr.tif".toList ∧
    mlooked_path "some/dir/geo_060619-061002_4rlks.tif".toList 4 8
      = "some/dir/geo_060619-061002_4rlks_4rlks_8cr.tif".toList := by
  refine ⟨?_, ?_, ?_⟩ <;> decide

/-- Splitting a path whose extension holds no dot and no slash cuts
exactly at that dot. -/
lemma splitExt_append (stem ext : List Char) (hdot : '.' ∉ ext)
    (hslash : '/' ∉ ext) :
    splitExt (stem ++ '.' :: ext) = (stem, '.' :: ext) := by
  induction stem with
  | nil =>
    rw [List.nil_append, splitExt, if_pos ⟨rfl, hdot, hslash⟩]
  | cons c stem ih =>
    rw [List.cons_append, splitExt, if_neg ?_, ih]
    rintro ⟨-, hmem, -⟩
    exact hmem (List.mem_append.mpr (Or.inr (List.mem_cons_self _ _)))

/-- C9: for any stem and dot-free, slash-free extension, the namer
inserts `_<looks>rlks_<crop>cr` between stem and extension, and a second
application appends a second suffix after the first instead of replacing
it (the transform is not idempotent). -/
theorem mlooked_path_spec (stem ext : List Char)
    (looks crop looks2 crop2 : ℕ)
    (hdot : '.' ∉ ext) (hslash : '/' ∉ ext) :
    mlooked_path (stem ++ '.' :: ext) looks crop
      = stem ++ lookSuffix looks crop ++ '.' :: ext ∧
    mlooked_path (mlooked_path (stem ++ '.' :: ext) looks crop)
        looks2 crop2
      = stem ++ lookSuffix looks crop ++ lookSuffix looks2 crop2
        ++ '.' :: ext := by
  have h1 : mlooked_path (stem ++ '.' :: ext) looks crop
      = stem ++ lookSuffix looks crop ++ '.' :: ext := by
    unfold mlooked_path
    rw [splitExt_append stem ext hdot hslash]
  refine ⟨h1, ?_⟩
  rw [h1, show stem ++ lookSuffix looks crop ++ '.' :: ext
    = (stem ++ lookSuffix looks crop) ++ '.' :: ext from by
      simp [List.append_assoc]]
  unfold mlooked_path
  rw [splitExt_append _ ext hdot hslash]

/-- Witness for C9 on the spec's example `a/b.tif` with looks 2 and
crop code 4, chained with a second pass of looks 4, crop 8. -/
theorem mlooked_path_spec_witness :
    mlooked_path ("a/b".toList ++ '.' :: "tif".toList) 2 4
      = "a/b".toList ++ lookSuffix 2 4 ++ '.' :: "tif".toList ∧
    mlooked_path (mlooked_path ("a/b".toList ++ '.' :: "tif".toList) 2 4) 4 8
      = "a/b".toList ++ lookSuffix 2 4 ++ lookSuffix 4 8
        ++ '.' :: "tif".toList :=
  mlooked_path_spec "a/b".toList "tif".toList 2 4 4 8
    (by decide) (by decide)

/-- Witness for C5 (amended) at input 6. -/
theorem factorizer_minimal_sum_witness :
    break_number_into_factors 6 [] 1 = (BRes.pair 6 [6], []) ∧
    ∃ a b,
      resFactors (break_number_into_factors 6 [] 2).1 = some (a, b) ∧
      a * b = 6 ∧
      (∀ c d, c * d = 6 → a + b ≤ c + d) ∧
      (6 = 4 → (break_number_into_factors 6 [] 2).1 = BRes.pairNum a b) ∧
      (6 ≠ 4 → (break_number_into_factors 6 [] 2).1 = BRes.list [a, b]) :=
  factorizer_minimal_sum 6 (by norm_num)

end PyRate
